import Mathlib

/-!
# Verification development for homomorphic_computational_extensions

Shallow embedding of

* `accumulators/kbn_sum.hpp`   (struct `kbn_sum<T>`),
* `accumulators/welford_accumulator.hpp` (struct `welford_accumulator<A>`, with `A = kbn_sum<T>`),
* `epsilon.hpp` (class `epsilon<T>` and its six relational operators),
* `lg.hpp` (struct `lg<T>`, its operators and the functions on it).

Conventions of the embedding.

* A mutating member function `f` of the source becomes a Lean function from the
  receiver (and the arguments) to the new receiver.
* The C++ operators are named `op_add_assign` (`operator+=`), `op_add` (`operator+`),
  `op_eq` (`operator==`), `op_ne` (`operator!=`), `op_lt`, `op_gt`, `op_le`, `op_ge`,
  `toT` (`operator T()`).
* The scalar type `T` is a type parameter.  `kbn_sum` and `epsilon` only use the
  capabilities the source uses (`+`, `-`, `<`, `<=`, `max`, `abs`), so their
  definitions make no assumption of exactness; the theorems state which laws of `T`
  they rely on.
* `unsigned int` is the 32-bit unsigned type: arithmetic modulo `2^32`.
* Division in an exact scalar type is undefined at divisor zero; it is rendered by
  `checked_div`, which returns `none` there.
* In `lg.hpp` the struct `lg<T>` has user-provided constructors, so it is not an
  aggregate: the braced `lg<T>{e}` is a list-initialisation that selects the value
  constructor `lg(T x)`, exactly as the parenthesised `lg<T>(x)` does. Either form
  stores `log(e)` and asserts `0 < e`; a failed assertion is `none`.
* `float3` is a small floating-point scalar type (three significant bits, round to
  nearest, ties to even, no exponent bound) on which `kbn_sum` runs with rounded `+`
  and `-`; `naive_sum` is the plain left-to-right summation it is compared with.
* The functions `log`, `exp`, `sqrt` of `T`, the constant `M_PI` and the limits
  `numeric_limits<T>::max()`, `min()` are not part of the source; the definitions
  take them as parameters (`log_T`, `exp_T`, `sqrt_T`, `M_PI`, `max_T`, `min_T`).
-/

set_option autoImplicit false

/-! ## Definitions -/

/-- The absolute value `abs : T -> T` the source obtains through `using std::abs`. -/
class HasAbs (T : Type) where
  abs : T → T

/-- In an ordered additive group the absolute value is the usual one. -/
instance instHasAbsOfLatticeAddGroup {T : Type} [Lattice T] [AddGroup T] : HasAbs T where
  abs := fun x => |x|

/-- The struct `kbn_sum<T>`: running sum `s` and running compensation `c`. -/
structure kbn_sum (T : Type) where
  s : T
  c : T

namespace kbn_sum

variable {T : Type}

/-- The constructor `kbn_sum(T const & x = T(0)) : s(x), c(T(0))`. -/
def ctor [Zero T] (x : T) : kbn_sum T := ⟨x, 0⟩

/-- The default construction `kbn_sum()`, the argument defaulting to `T(0)`. -/
def default_ctor [Zero T] : kbn_sum T := ctor 0

/-- The assignment `operator=(T const & x) { s = x; return *this; }`. -/
def assign (a : kbn_sum T) (x : T) : kbn_sum T := ⟨x, a.c⟩

/-- The conversion `operator T() const { return s+c; }`. -/
def toT [Add T] (a : kbn_sum T) : T := a.s + a.c

/-- The member `eval() const { return s+c; }`. -/
def eval [Add T] (a : kbn_sum T) : T := a.s + a.c

/-- The comparison `operator<(kbn_sum<T> const & rhs)`: compares the converted values. -/
def op_lt [Add T] [LT T] [DecidableRel ((· < ·) : T → T → Prop)] (a rhs : kbn_sum T) : Bool :=
  decide (a.toT < rhs.toT)

/-- The comparison `operator==(kbn_sum<T> const & rhs)`: compares the converted values. -/
def op_eq [Add T] [DecidableEq T] (a rhs : kbn_sum T) : Bool :=
  decide (a.toT = rhs.toT)

/-- The single-value add `operator+=(T const & x)`:
`t = s + x; if (abs(x) < abs(s)) c += ((s - t) + x); else c += ((x - t) + s); s = t;`. -/
def op_add_assign [Add T] [Sub T] [LT T] [DecidableRel ((· < ·) : T → T → Prop)] [HasAbs T]
    (a : kbn_sum T) (x : T) : kbn_sum T :=
  let t := a.s + x
  if HasAbs.abs x < HasAbs.abs a.s then
    ⟨t, a.c + ((a.s - t) + x)⟩
  else
    ⟨t, a.c + ((x - t) + a.s)⟩

/-- The merge add `operator+=(kbn_sum<T> const & rhs)`: `(*this) += rhs.s; (*this) += rhs.c;`. -/
def op_add_assign_sum [Add T] [Sub T] [LT T] [DecidableRel ((· < ·) : T → T → Prop)] [HasAbs T]
    (a rhs : kbn_sum T) : kbn_sum T :=
  (a.op_add_assign rhs.s).op_add_assign rhs.c

/-- The sum `operator+(kbn_sum<T> const & rhs)`: `kbn_sum<T>(*this) += rhs`. -/
def op_add [Add T] [Sub T] [LT T] [DecidableRel ((· < ·) : T → T → Prop)] [HasAbs T]
    (a rhs : kbn_sum T) : kbn_sum T :=
  a.op_add_assign_sum rhs

/-- The member `reduce(I begin, I end)`: `for (i = begin; i != end; ++i) (*this) += *i;`,
the input range being given as the list of its elements. -/
def reduce [Add T] [Sub T] [LT T] [DecidableRel ((· < ·) : T → T → Prop)] [HasAbs T]
    (a : kbn_sum T) (xs : List T) : kbn_sum T :=
  xs.foldl op_add_assign a

end kbn_sum

/-- Division in the exact scalar type: undefined (`none`) at divisor zero. -/
def checked_div {T : Type} [Div T] [Zero T] [DecidableEq T] (a b : T) : Option T :=
  if b = 0 then none else some (a / b)

/-- The modulus of `unsigned int` arithmetic (32 bits). -/
def UINT_MODULUS : Nat := 4294967296

/-- The struct `welford_accumulator<A>` with `A = kbn_sum<T>`:
`unsigned int count; A mu, M2;`. -/
structure welford_accumulator (T : Type) where
  count : Nat
  mu : kbn_sum T
  M2 : kbn_sum T

namespace welford_accumulator

variable {T : Type} [LinearOrderedField T]

/-- The default constructor `welford_accumulator() : count(0), mu(), M2()`. -/
def default_ctor : welford_accumulator T :=
  ⟨0, kbn_sum.default_ctor, kbn_sum.default_ctor⟩

/-- The insertion `operator+=(value_type x)`:
`++count; delta = x - mu; mu += delta / count; delta2 = x - mu; M2 += delta * delta2;`.
`x - mu` is the subtraction of `T`, `mu` being converted by `operator T()`; both `+=`
are the single-value add of `kbn_sum`; `++count` is an `unsigned int` increment. -/
def op_add_assign (w : welford_accumulator T) (x : T) : Option (welford_accumulator T) :=
  let count := (w.count + 1) % UINT_MODULUS
  let delta := x - w.mu.toT
  match checked_div delta (count : T) with
  | none => none
  | some q =>
    let mu := w.mu.op_add_assign q
    let delta2 := x - mu.toT
    some ⟨count, mu, w.M2.op_add_assign (delta * delta2)⟩

/-- The seeded constructor `welford_accumulator(value_type a)`: empty, then `operator+=(a)`. -/
def ctor (a : T) : Option (welford_accumulator T) :=
  (default_ctor : welford_accumulator T).op_add_assign a

/-- The accessor `variance()`: `value_type(M2) / value_type(count)`. -/
def variance (w : welford_accumulator T) : Option T :=
  checked_div w.M2.toT (w.count : T)

/-- The accessor `sample_variance()`: `value_type(M2) / (value_type(count - 1))`, the
subtraction `count - 1` being done in `unsigned int`. -/
def sample_variance (w : welford_accumulator T) : Option T :=
  checked_div w.M2.toT (((w.count + (UINT_MODULUS - 1)) % UINT_MODULUS : Nat) : T)

/-- The accessor `mean()`: `value_type(mu)`. -/
def mean (w : welford_accumulator T) : T := w.mu.toT

/-- The accessor `sum()`: `value_type(mu) * value_type(count)`. -/
def sum (w : welford_accumulator T) : T := w.mu.toT * (w.count : T)

/-- The accessor `size()`: `count`. -/
def size (w : welford_accumulator T) : Nat := w.count

/-- Inserting the elements of a sequence one at a time, first to last; the run stops
at the first insertion that fails. -/
def insert_all (w : welford_accumulator T) : List T → Option (welford_accumulator T)
  | [] => some w
  | x :: xs =>
    match w.op_add_assign x with
    | none => none
    | some w1 => insert_all w1 xs

end welford_accumulator

/-- The direct two-pass computation, first pass: the arithmetic mean `(x1+...+xn)/n`. -/
def two_pass_mean {T : Type} [LinearOrderedField T] (xs : List T) : T :=
  xs.sum / (xs.length : T)

/-- The direct two-pass computation, second pass: the population variance
`(1/n) * sum of (xi - mean)^2`. -/
def two_pass_variance {T : Type} [LinearOrderedField T] (xs : List T) : T :=
  (xs.map (fun x => (x - two_pass_mean xs) ^ 2)).sum / (xs.length : T)

/-- The helper `distance(a, b)`: `abs(a-b)`. -/
def distance {T : Type} [Sub T] [HasAbs T] (a b : T) : T := HasAbs.abs (a - b)

/-- The class `epsilon<T>`: a value with its tolerance `eps`
(constructor `epsilon(T x, T eps)`; no check on `eps`). -/
structure epsilon (T : Type) where
  value : T
  eps : T

namespace epsilon

variable {T : Type} [Sub T] [HasAbs T] [Max T] [LT T] [LE T]
  [DecidableRel ((· < ·) : T → T → Prop)] [DecidableRel ((· ≤ ·) : T → T → Prop)]

/-- The comparison `operator==`: `distance(x.value,y.value) <= max(x.eps,y.eps)`. -/
def op_eq (x y : epsilon T) : Bool :=
  decide (distance x.value y.value ≤ max x.eps y.eps)

/-- The comparison `operator!=`: `max(x.eps,y.eps) < distance(x.value,y.value)`. -/
def op_ne (x y : epsilon T) : Bool :=
  decide (max x.eps y.eps < distance x.value y.value)

/-- The comparison `operator>`: `x != y && y.value < x.value`. -/
def op_gt (x y : epsilon T) : Bool :=
  op_ne x y && decide (y.value < x.value)

/-- The comparison `operator<`: `x != y && x.value < y.value`. -/
def op_lt (x y : epsilon T) : Bool :=
  op_ne x y && decide (x.value < y.value)

/-- The comparison `operator<=`: `x == y || x.value < y.value`. -/
def op_le (x y : epsilon T) : Bool :=
  op_eq x y || decide (x.value < y.value)

/-- The comparison `operator>=`: `x == y && y.value > x.value`. -/
def op_ge (x y : epsilon T) : Bool :=
  op_eq x y && decide (y.value > x.value)

end epsilon

/-- The struct `lg<T>`: the stored logarithm `k` of the represented value. -/
structure lg (T : Type) where
  k : T

namespace lg

variable {T : Type}

/-- The default constructor `lg() : k(T(0))`, the multiplicative identity. -/
def default_ctor [Zero T] : lg T := ⟨0⟩

/-- The value constructor `lg(T x) : k(log(x)) { assert(0 < x); }`. -/
def ctor [Zero T] [LT T] [DecidableRel ((· < ·) : T → T → Prop)]
    (log_T : T → T) (x : T) : Option (lg T) :=
  if 0 < x then some ⟨log_T x⟩ else none

/-- The conversion `operator T() const { return exp(k); }`. -/
def toT (exp_T : T → T) (x : lg T) : T := exp_T x.k

/-- The member `log() const { return lg<T>{k}; }`: the value constructor applied to
`k`. -/
def log [Zero T] [LT T] [DecidableRel ((· < ·) : T → T → Prop)]
    (log_T : T → T) (x : lg T) : Option (lg T) :=
  ctor log_T x.k

/-- The limit `numeric_limits<lg<T>>::max()`: `lg<T>{number_limits<T>::max()}`, the
value constructor applied to the maximum of `T`. -/
def numeric_limits_max [Zero T] [LT T] [DecidableRel ((· < ·) : T → T → Prop)]
    (log_T : T → T) (max_T : T) : Option (lg T) :=
  ctor log_T max_T

/-- The limit `numeric_limits<lg<T>>::min()`: `lg<T>{number_limits<T>::min()}`, the
value constructor applied to the minimum of `T`. -/
def numeric_limits_min [Zero T] [LT T] [DecidableRel ((· < ·) : T → T → Prop)]
    (log_T : T → T) (min_T : T) : Option (lg T) :=
  ctor log_T min_T

/-- The function `inv(x)`: `lg<T>{-x.k}`, the value constructor applied to `-x.k`. -/
def inv [Zero T] [Neg T] [LT T] [DecidableRel ((· < ·) : T → T → Prop)]
    (log_T : T → T) (x : lg T) : Option (lg T) :=
  ctor log_T (-x.k)

/-- The product `operator*(x, y)`: `lg<T>{x.k + y.k}`, the value constructor applied
to `x.k + y.k`. -/
def op_mul [Zero T] [Add T] [LT T] [DecidableRel ((· < ·) : T → T → Prop)]
    (log_T : T → T) (x y : lg T) : Option (lg T) :=
  ctor log_T (x.k + y.k)

/-- The quotient `operator/(x, y)`: `lg<T>{x.k + (-y.k)}`, the value constructor
applied to `x.k + (-y.k)`. -/
def op_div [Zero T] [Add T] [Neg T] [LT T] [DecidableRel ((· < ·) : T → T → Prop)]
    (log_T : T → T) (x y : lg T) : Option (lg T) :=
  ctor log_T (x.k + (-y.k))

/-- The comparison `operator<(x, y)`: `x.k < y.k`. -/
def op_lt [LT T] [DecidableRel ((· < ·) : T → T → Prop)] (x y : lg T) : Bool :=
  decide (x.k < y.k)

/-- The comparison `operator<=(x, y)`: `x.k <= y.k`. -/
def op_le [LE T] [DecidableRel ((· ≤ ·) : T → T → Prop)] (x y : lg T) : Bool :=
  decide (x.k ≤ y.k)

/-- The comparison `operator==(x, y)`: `x.k == y.k`. -/
def op_eq [DecidableEq T] (x y : lg T) : Bool :=
  decide (x.k = y.k)

/-- The comparison `operator!=(x, y)`: `x.k != y.k`. -/
def op_ne [DecidableEq T] (x y : lg T) : Bool :=
  decide (x.k ≠ y.k)

/-- The comparison `operator>(x, y)`: `x.k > y.k`. -/
def op_gt [LT T] [DecidableRel ((· < ·) : T → T → Prop)] (x y : lg T) : Bool :=
  decide (x.k > y.k)

/-- The comparison `operator>=(x, y)`: `x.k >= y.k`. -/
def op_ge [LE T] [DecidableRel ((· ≤ ·) : T → T → Prop)] (x y : lg T) : Bool :=
  decide (x.k ≥ y.k)

/-- The predicate `source_overflows(x)`: `lg<T>(numeric_limits<T>::max()) < x`; the
left operand is built by the value constructor. -/
def source_overflows [Zero T] [LT T] [DecidableRel ((· < ·) : T → T → Prop)]
    (log_T : T → T) (max_T : T) (x : lg T) : Option Bool :=
  match ctor log_T max_T with
  | none => none
  | some m => some (op_lt m x)

/-- The predicate `source_underflows(x)`: `numeric_limits<lg<T>>::max() < x`. -/
def source_underflows [Zero T] [LT T] [DecidableRel ((· < ·) : T → T → Prop)]
    (log_T : T → T) (max_T : T) (x : lg T) : Option Bool :=
  match numeric_limits_max log_T max_T with
  | none => none
  | some m => some (op_lt m x)

/-- The function `gamma(x)`:
`q = log(sqrt((T)2*M_PI)); y = (T)x; lg<T>{q + log(sqrt(y)) + y * (T)(log(x)) + (-y)}`,
where `log(x)` on an `lg<T>` is `x.log()` and the outer braces are the value
constructor. -/
def gamma [Zero T] [Add T] [Mul T] [Neg T] [OfNat T 2] [LT T]
    [DecidableRel ((· < ·) : T → T → Prop)]
    (log_T exp_T sqrt_T : T → T) (M_PI : T) (x : lg T) : Option (lg T) :=
  let q := log_T (sqrt_T (2 * M_PI))
  let y := toT exp_T x
  match log log_T x with
  | none => none
  | some l => ctor log_T (q + log_T (sqrt_T y) + y * toT exp_T l + (-y))

/-- The function `pow(x, e)`: `lg<T>{e * x.k}`, the value constructor applied to
`e * x.k`. -/
def pow [Zero T] [Mul T] [LT T] [DecidableRel ((· < ·) : T → T → Prop)]
    (log_T : T → T) (x : lg T) (e : T) : Option (lg T) :=
  ctor log_T (e * x.k)

/-- The function `sqrt(x)`: `pow(x, T(0.5))`. -/
def sqrt [Zero T] [Mul T] [OfScientific T] [LT T] [DecidableRel ((· < ·) : T → T → Prop)]
    (log_T : T → T) (x : lg T) : Option (lg T) :=
  pow log_T x (0.5 : T)

/-- The function `nth_root(x, r)`: `pow(x, T(1) / r)`. -/
def nth_root [Mul T] [Div T] [Zero T] [One T] [DecidableEq T] [LT T]
    [DecidableRel ((· < ·) : T → T → Prop)]
    (log_T : T → T) (x : lg T) (r : T) : Option (lg T) :=
  match checked_div (1 : T) r with
  | none => none
  | some q => pow log_T x q

/-- The function `exp(x)`: `lg<T>{(T)x}`, the value constructor applied to the
converted value. -/
def exp [Zero T] [LT T] [DecidableRel ((· < ·) : T → T → Prop)]
    (log_T exp_T : T → T) (x : lg T) : Option (lg T) :=
  ctor log_T (toT exp_T x)

end lg

/-- The binary exponent of the last kept bit when `n` is cut to three significant
bits: `0` for `n < 8`, else one more than that of `n / 2` (the first argument bounds
the recursion). -/
def expo3 : Nat → Nat → Nat
  | 0, _ => 0
  | fuel + 1, n => if n < 8 then 0 else expo3 fuel (n / 2) + 1

/-- Rounding of a natural number to three significant bits, to nearest, ties to the
even significand. -/
def round3 (n : Nat) : Nat :=
  let e := expo3 n n
  let m := n / 2 ^ e
  let r := n % 2 ^ e
  if 2 * r < 2 ^ e then m * 2 ^ e
  else if 2 ^ e < 2 * r then (m + 1) * 2 ^ e
  else (m + m % 2) * 2 ^ e

/-- Rounding of an integer to three significant bits: the sign times the rounded
magnitude. -/
def fl3 (z : Int) : Int :=
  if z < 0 then -((round3 z.natAbs : Nat) : Int) else ((round3 z.natAbs : Nat) : Int)

/-- A scalar type for `kbn_sum<T>`: the integer values of the binary floating-point
format with three significant bits (unit roundoff `1/8`), with `+` and `-` rounded by
`fl3`. -/
structure float3 where
  val : Int
deriving DecidableEq

instance float3.instZero : Zero float3 := ⟨⟨0⟩⟩

instance float3.instAdd : Add float3 := ⟨fun a b => ⟨fl3 (a.val + b.val)⟩⟩

instance float3.instSub : Sub float3 := ⟨fun a b => ⟨fl3 (a.val - b.val)⟩⟩

instance float3.instLT : LT float3 := ⟨fun a b => a.val < b.val⟩

instance float3.instDecidableLT : DecidableRel ((· < ·) : float3 → float3 → Prop) :=
  fun a b => Int.decLt a.val b.val

instance float3.instHasAbs : HasAbs float3 := ⟨fun a => ⟨Int.natAbs a.val⟩⟩

/-- Naive left-to-right summation in `T`: `t = T(0); for x in xs: t = t + x`, the
summation the accuracy statement of `kbn_sum` compares with. -/
def naive_sum {T : Type} [Zero T] [Add T] (xs : List T) : T :=
  xs.foldl (fun t x => t + x) 0

/-! ## Shared lemmas -/

section kbn_exact

variable {T : Type} [LinearOrderedField T]

theorem kbn_sum.op_add_assign_s (a : kbn_sum T) (x : T) :
    (a.op_add_assign x).s = a.s + x := by
  unfold kbn_sum.op_add_assign
  split <;> rfl

theorem kbn_sum.op_add_assign_c (a : kbn_sum T) (x : T) :
    (a.op_add_assign x).c = a.c := by
  unfold kbn_sum.op_add_assign
  split <;> simp

theorem kbn_sum.toT_op_add_assign (a : kbn_sum T) (x : T) :
    (a.op_add_assign x).toT = a.toT + x := by
  simp only [kbn_sum.toT, kbn_sum.op_add_assign_s, kbn_sum.op_add_assign_c]
  ring

theorem kbn_sum.toT_reduce (a : kbn_sum T) (xs : List T) :
    (a.reduce xs).toT = a.toT + xs.sum := by
  unfold kbn_sum.reduce
  induction xs generalizing a with
  | nil => simp
  | cons x xs ih =>
    rw [List.foldl_cons, ih, kbn_sum.toT_op_add_assign, List.sum_cons]
    ring

theorem kbn_sum.toT_op_add_assign_sum (a b : kbn_sum T) :
    (a.op_add_assign_sum b).toT = a.toT + b.toT := by
  simp only [kbn_sum.op_add_assign_sum, kbn_sum.toT_op_add_assign]
  simp only [kbn_sum.toT]
  ring

theorem kbn_sum.toT_op_add (a b : kbn_sum T) :
    (a.op_add b).toT = a.toT + b.toT :=
  kbn_sum.toT_op_add_assign_sum a b

theorem kbn_sum.toT_ctor (x : T) : (kbn_sum.ctor x).toT = x := by
  simp [kbn_sum.ctor, kbn_sum.toT]

theorem kbn_sum.toT_default_ctor : (kbn_sum.default_ctor : kbn_sum T).toT = 0 := by
  simp [kbn_sum.default_ctor, kbn_sum.toT_ctor]

end kbn_exact

/-! ## Theorems -/

/-- C1: over exact arithmetic (a linearly ordered field) the materialised value of
`a.reduce(xs)` is the materialised value of `a` plus the exact sum of `xs`; in
particular `kbn_sum(x) + kbn_sum(y)` materialises to `x + y`, and
`kbn_sum(x + y) == kbn_sum(x) + kbn_sum(y)` under `operator==`. -/
theorem C1_reduce_homomorphism {T : Type} [LinearOrderedField T]
    (a : kbn_sum T) (xs : List T) (x y : T) :
    (a.reduce xs).toT = a.toT + xs.sum
    ∧ ((kbn_sum.ctor x).op_add (kbn_sum.ctor y)).toT = x + y
    ∧ (kbn_sum.ctor (x + y)).op_eq ((kbn_sum.ctor x).op_add (kbn_sum.ctor y)) = true := by
  refine ⟨kbn_sum.toT_reduce a xs, ?_, ?_⟩
  · rw [kbn_sum.toT_op_add, kbn_sum.toT_ctor, kbn_sum.toT_ctor]
  · simp only [kbn_sum.op_eq, decide_eq_true_eq]
    rw [kbn_sum.toT_op_add, kbn_sum.toT_ctor, kbn_sum.toT_ctor, kbn_sum.toT_ctor]

/-- C2: for every scalar type with the required capabilities (no exactness assumed),
every state `(s, c)` and every `x`, the single-value add yields `s' = t` with
`t = s + x`, and `c' = c + ((s - t) + x)` when `abs x < abs s`, else
`c' = c + ((x - t) + s)` (so also at a tie); the test reads `x` and `s` only, hence the
new sum and the amount added to the compensation do not depend on `c`. -/
theorem C2_add_neumaier {T : Type} [Add T] [Sub T] [LT T]
    [DecidableRel ((· < ·) : T → T → Prop)] [HasAbs T] (s c x : T) :
    (kbn_sum.op_add_assign ⟨s, c⟩ x).s = s + x
    ∧ (kbn_sum.op_add_assign ⟨s, c⟩ x).c
        = (if HasAbs.abs x < HasAbs.abs s then c + ((s - (s + x)) + x)
           else c + ((x - (s + x)) + s))
    ∧ (HasAbs.abs x = HasAbs.abs s → ¬ (HasAbs.abs s < HasAbs.abs s) →
        (kbn_sum.op_add_assign ⟨s, c⟩ x).c = c + ((x - (s + x)) + s))
    ∧ (∀ c2 : T, (kbn_sum.op_add_assign ⟨s, c2⟩ x).s = (kbn_sum.op_add_assign ⟨s, c⟩ x).s) := by
  refine ⟨?_, ?_, ?_, ?_⟩
  · unfold kbn_sum.op_add_assign
    split <;> rfl
  · unfold kbn_sum.op_add_assign
    split <;> rfl
  · intro h hirr
    unfold kbn_sum.op_add_assign
    rw [h]
    simp only [if_neg hirr]
  · intro c2
    unfold kbn_sum.op_add_assign
    split <;> rfl

/-- C3: over exact arithmetic, for every sequence cut into contiguous blocks
(`blocks.flatten` is the sequence), reducing each block into a fresh `kbn_sum` and
merging the block sums left to right with the merge add gives the same materialised
value as one `reduce` over the whole sequence, whether the merge starts from a fresh
accumulator or from the first block's sum; that value is the exact sum. The merge
add is the single-value add of the other's `s` followed by that of its `c`. -/
theorem C3_blockwise_reduce_merge {T : Type} [LinearOrderedField T]
    (blocks : List (List T)) (b : List T) (bs : List (List T)) :
    ((blocks.map (fun l => (kbn_sum.default_ctor : kbn_sum T).reduce l)).foldl
        kbn_sum.op_add_assign_sum kbn_sum.default_ctor).toT
      = ((kbn_sum.default_ctor : kbn_sum T).reduce blocks.flatten).toT
    ∧ ((bs.map (fun l => (kbn_sum.default_ctor : kbn_sum T).reduce l)).foldl
        kbn_sum.op_add_assign_sum ((kbn_sum.default_ctor : kbn_sum T).reduce b)).toT
      = ((kbn_sum.default_ctor : kbn_sum T).reduce (b :: bs).flatten).toT
    ∧ ((kbn_sum.default_ctor : kbn_sum T).reduce blocks.flatten).toT = blocks.flatten.sum
    ∧ (∀ a r : kbn_sum T, a.op_add_assign_sum r = (a.op_add_assign r.s).op_add_assign r.c) := by
  have key : ∀ (ls : List (List T)) (a : kbn_sum T),
      ((ls.map (fun l => (kbn_sum.default_ctor : kbn_sum T).reduce l)).foldl
        kbn_sum.op_add_assign_sum a).toT = a.toT + ls.flatten.sum := by
    intro ls
    induction ls with
    | nil => intro a; simp
    | cons l ls ih =>
      intro a
      rw [List.map_cons, List.foldl_cons, ih, kbn_sum.toT_op_add_assign_sum,
        kbn_sum.toT_reduce, kbn_sum.toT_default_ctor, List.flatten_cons, List.sum_append]
      ring
  refine ⟨?_, ?_, ?_, ?_⟩
  · rw [key, kbn_sum.toT_reduce]
  · rw [key, kbn_sum.toT_reduce, kbn_sum.toT_reduce, List.flatten_cons, List.sum_append]
    ring
  · rw [kbn_sum.toT_reduce, kbn_sum.toT_default_ctor, zero_add]
  · intro a r
    rfl

/-- C4: over exact arithmetic `kbn_sum<T>` is a monoid under `operator+` with identity
`kbn_sum()`, up to its own equality `operator==` (equality of the materialised values):
`(a + b) + c == a + (b + c)`, `kbn_sum() + a == a` and `a + kbn_sum() == a`. -/
theorem C4_monoid_under_op_eq {T : Type} [LinearOrderedField T] (a b c : kbn_sum T) :
    ((a.op_add b).op_add c).op_eq (a.op_add (b.op_add c)) = true
    ∧ ((kbn_sum.default_ctor : kbn_sum T).op_add a).op_eq a = true
    ∧ (a.op_add kbn_sum.default_ctor).op_eq a = true := by
  simp only [kbn_sum.op_eq, decide_eq_true_eq, kbn_sum.toT_op_add, kbn_sum.toT_default_ctor]
  refine ⟨?_, ?_, ?_⟩
  · ring
  · ring
  · ring

/-- Witness for C2 at the tie `s = 1`, `x = -1` over the rationals. -/
theorem C2_add_neumaier_witness :
    HasAbs.abs (-1 : ℚ) = HasAbs.abs (1 : ℚ)
    ∧ ¬ (HasAbs.abs (1 : ℚ) < HasAbs.abs (1 : ℚ))
    ∧ (kbn_sum.op_add_assign ⟨(1 : ℚ), 5⟩ (-1)).c = 5 + (((-1) - (1 + (-1))) + 1) :=
  have h1 : HasAbs.abs (-1 : ℚ) = HasAbs.abs (1 : ℚ) := by
    show |(-1 : ℚ)| = |(1 : ℚ)|
    norm_num
  have h2 : ¬ (HasAbs.abs (1 : ℚ) < HasAbs.abs (1 : ℚ)) := lt_irrefl _
  ⟨h1, h2, (C2_add_neumaier (1 : ℚ) 5 (-1)).2.2.1 h1 h2⟩

/-! ## Lemmas on the Welford accumulator -/

section welford_exact

variable {T : Type} [LinearOrderedField T]

theorem checked_div_of_ne_zero (a b : T) (hb : b ≠ 0) : checked_div a b = some (a / b) := by
  simp [checked_div, hb]

theorem checked_div_zero (a : T) : checked_div a (0 : T) = none := by
  simp [checked_div]

/-- The insertion below the wrap of the counter, as an equation on states. -/
theorem welford_accumulator.op_add_assign_eq (w : welford_accumulator T) (x : T)
    (hc : w.count + 1 < UINT_MODULUS) :
    w.op_add_assign x = some
      ⟨w.count + 1,
       w.mu.op_add_assign ((x - w.mu.toT) / ((w.count + 1 : Nat) : T)),
       w.M2.op_add_assign ((x - w.mu.toT) *
         (x - (w.mu.op_add_assign ((x - w.mu.toT) / ((w.count + 1 : Nat) : T))).toT))⟩ := by
  have hmod : (w.count + 1) % UINT_MODULUS = w.count + 1 := Nat.mod_eq_of_lt hc
  have hne : (((w.count + 1 : Nat)) : T) ≠ 0 := Nat.cast_ne_zero.mpr (Nat.succ_ne_zero _)
  unfold welford_accumulator.op_add_assign
  simp only [hmod]
  rw [checked_div_of_ne_zero _ _ hne]

/-- The insertion at the last value of the counter: `++count` wraps to zero and the
division `delta / count` is a division by zero. -/
theorem welford_accumulator.op_add_assign_wrap (w : welford_accumulator T) (x : T)
    (hc : w.count + 1 = UINT_MODULUS) : w.op_add_assign x = none := by
  have hmod : (w.count + 1) % UINT_MODULUS = 0 := by rw [hc]; exact Nat.mod_self _
  unfold welford_accumulator.op_add_assign
  simp only [hmod, Nat.cast_zero, checked_div_zero]

theorem welford_accumulator.insert_all_append (w : welford_accumulator T) (xs : List T) (x : T) :
    w.insert_all (xs ++ [x]) = (w.insert_all xs).bind (fun w1 => w1.op_add_assign x) := by
  induction xs generalizing w with
  | nil =>
    simp only [List.nil_append, welford_accumulator.insert_all, Option.some_bind]
    cases w.op_add_assign x <;> rfl
  | cons y ys ih =>
    simp only [List.cons_append, welford_accumulator.insert_all]
    cases w.op_add_assign y with
    | none => rfl
    | some w1 => exact ih w1

/-- Sum of squared deviations from an arbitrary centre `m`, expanded. -/
theorem sum_sq_dev_expand (xs : List T) (m : T) :
    (xs.map (fun x => (x - m) ^ 2)).sum
      = (xs.map (fun x => x ^ 2)).sum - 2 * m * xs.sum + (xs.length : T) * m ^ 2 := by
  induction xs with
  | nil => simp
  | cons x xs ih =>
    simp only [List.map_cons, List.sum_cons, List.length_cons, Nat.cast_succ, ih]
    ring

/-- The Welford invariant: after inserting `xs` (shorter than the counter range) into
the empty accumulator the run has succeeded, `count` is the length, and, when `xs` is
not empty, `mu` materialises to `S / n` and `M2` to `Q - S^2 / n`, with `S` the sum
and `Q` the sum of squares. -/
theorem welford_accumulator.insert_all_invariant (xs : List T)
    (hlen : xs.length < UINT_MODULUS) :
    ∃ w : welford_accumulator T,
      (welford_accumulator.default_ctor : welford_accumulator T).insert_all xs = some w
      ∧ w.count = xs.length
      ∧ (xs = [] → w.mu.toT = 0 ∧ w.M2.toT = 0)
      ∧ (xs ≠ [] → w.mu.toT = xs.sum / (xs.length : T)
          ∧ w.M2.toT = (xs.map (fun x => x ^ 2)).sum - xs.sum ^ 2 / (xs.length : T)) := by
  induction xs using List.reverseRecOn with
  | nil =>
    refine ⟨welford_accumulator.default_ctor, rfl, rfl, ?_, ?_⟩
    · intro _
      exact ⟨kbn_sum.toT_default_ctor, kbn_sum.toT_default_ctor⟩
    · intro h; exact absurd rfl h
  | append_singleton xs x ih =>
    have hlen1 : xs.length + 1 < UINT_MODULUS := by
      simpa [List.length_append] using hlen
    obtain ⟨w, hw, hcount, hnil, hcons⟩ := ih (Nat.lt_of_succ_lt hlen1)
    have hstep := welford_accumulator.op_add_assign_eq w x (by rw [hcount]; exact hlen1)
    rw [welford_accumulator.insert_all_append, hw, Option.some_bind, hstep]
    refine ⟨_, rfl, ?_, ?_, ?_⟩
    · simp [hcount]
    · intro h; simp at h
    · intro _
      simp only [kbn_sum.toT_op_add_assign, hcount, List.sum_append, List.sum_cons,
        List.sum_nil, List.map_append, List.map_cons, List.map_nil, List.length_append,
        List.length_singleton, add_zero]
      by_cases hxs : xs = []
      · obtain ⟨hmu, hM2⟩ := hnil hxs
        subst hxs
        simp [hmu, hM2]
      · obtain ⟨hmu, hM2⟩ := hcons hxs
        have hn : (xs.length : T) ≠ 0 :=
          Nat.cast_ne_zero.mpr (fun h => hxs (List.length_eq_zero.mp h))
        have hn1 : ((xs.length : T) + 1) ≠ 0 := by positivity
        rw [hmu, hM2]
        push_cast
        constructor
        · field_simp
          ring
        · field_simp
          ring

end welford_exact

/-! ## Theorems on the Welford accumulator -/

/-- C5 (amended): for every non-empty sequence of fewer than `2^32` values inserted one
at a time into an empty `welford_accumulator` over `kbn_sum` on an exact field, every
insertion succeeds, `mean()` is the arithmetic mean and `variance()` is the population
variance of the direct two-pass computation. -/
theorem C5_welford_matches_two_pass {T : Type} [LinearOrderedField T] (xs : List T)
    (hne : xs ≠ []) (hlen : xs.length < UINT_MODULUS) :
    ∃ w : welford_accumulator T,
      (welford_accumulator.default_ctor : welford_accumulator T).insert_all xs = some w
      ∧ w.size = xs.length
      ∧ w.mean = two_pass_mean xs
      ∧ w.variance = some (two_pass_variance xs) := by
  obtain ⟨w, hw, hcount, _, hcons⟩ := welford_accumulator.insert_all_invariant xs hlen
  obtain ⟨hmu, hM2⟩ := hcons hne
  have hn : (xs.length : T) ≠ 0 :=
    Nat.cast_ne_zero.mpr (fun h => hne (List.length_eq_zero.mp h))
  refine ⟨w, hw, hcount, ?_, ?_⟩
  · simp only [welford_accumulator.mean, two_pass_mean, hmu]
  · unfold welford_accumulator.variance
    rw [hcount, checked_div_of_ne_zero _ _ hn, hM2]
    unfold two_pass_variance two_pass_mean
    rw [sum_sq_dev_expand]
    congr 1
    field_simp
    ring

/-- Witness for C5 at the sequence 1, 2, 4 over the rationals. -/
theorem C5_welford_matches_two_pass_witness :
    ([1, 2, 4] : List ℚ) ≠ [] ∧ ([1, 2, 4] : List ℚ).length < UINT_MODULUS
    ∧ ∃ w : welford_accumulator ℚ,
      (welford_accumulator.default_ctor : welford_accumulator ℚ).insert_all [1, 2, 4] = some w
      ∧ w.size = ([1, 2, 4] : List ℚ).length
      ∧ w.mean = two_pass_mean [1, 2, 4]
      ∧ w.variance = some (two_pass_variance [1, 2, 4]) :=
  have h1 : ([1, 2, 4] : List ℚ) ≠ [] := List.cons_ne_nil _ _
  have h2 : ([1, 2, 4] : List ℚ).length < UINT_MODULUS := by
    simp [UINT_MODULUS]
  ⟨h1, h2, C5_welford_matches_two_pass [1, 2, 4] h1 h2⟩

/-- C5 fails as stated: inserting a sequence of `2^32` zeros, the last insertion wraps
the 32-bit counter to zero and divides by it, so no mean and no variance result. -/
theorem C5_counterexample_counter_wrap :
    List.replicate 4294967296 (0 : ℚ) ≠ []
    ∧ (welford_accumulator.default_ctor : welford_accumulator ℚ).insert_all
        (List.replicate 4294967296 (0 : ℚ)) = none
    ∧ ¬ ∃ w : welford_accumulator ℚ,
        (welford_accumulator.default_ctor : welford_accumulator ℚ).insert_all
          (List.replicate 4294967296 (0 : ℚ)) = some w
        ∧ w.mean = two_pass_mean (List.replicate 4294967296 (0 : ℚ))
        ∧ w.variance = some (two_pass_variance (List.replicate 4294967296 (0 : ℚ))) := by
  have hsplit : List.replicate 4294967296 (0 : ℚ)
      = List.replicate 4294967295 (0 : ℚ) ++ [0] :=
    List.replicate_succ' (n := 4294967295) (a := (0 : ℚ))
  have hlen : (List.replicate 4294967295 (0 : ℚ)).length < UINT_MODULUS := by
    rw [List.length_replicate]
    unfold UINT_MODULUS
    norm_num
  have hnone : (welford_accumulator.default_ctor : welford_accumulator ℚ).insert_all
      (List.replicate 4294967296 (0 : ℚ)) = none := by
    obtain ⟨w, hw, hcount, _, _⟩ := welford_accumulator.insert_all_invariant
      (List.replicate 4294967295 (0 : ℚ)) hlen
    rw [hsplit, welford_accumulator.insert_all_append, hw, Option.some_bind]
    apply welford_accumulator.op_add_assign_wrap
    rw [hcount, List.length_replicate]
    rfl
  refine ⟨?_, hnone, ?_⟩
  · rw [hsplit]
    exact List.append_ne_nil_of_right_ne_nil _ (List.cons_ne_nil _ _)
  · rintro ⟨w, hw, _⟩
    rw [hnone] at hw
    exact Option.noConfusion hw

/-- C6 (amended): for every state `(count, mu, M2)` whose counter is below its last
value (`count + 1 < 2^32`) and every `x`, the insertion succeeds with
`count' = count + 1`, `mu' = mu + (x - mu)/count'` and `M2' = M2 + (x - mu)*(x - mu')`
(both `+` being the single-value add of `kbn_sum`, hence also on the materialised
values); the second factor is taken from the updated mean, so whenever `x` differs
from the old mean the result differs from the one using `x - mu` twice. -/
theorem C6_welford_insert {T : Type} [LinearOrderedField T]
    (w : welford_accumulator T) (x : T) (hc : w.count + 1 < UINT_MODULUS) :
    ∃ w1 : welford_accumulator T,
      w.op_add_assign x = some w1
      ∧ w1.count = w.count + 1
      ∧ w1.mu = w.mu.op_add_assign ((x - w.mu.toT) / (w1.count : T))
      ∧ w1.M2 = w.M2.op_add_assign ((x - w.mu.toT) * (x - w1.mu.toT))
      ∧ w1.mu.toT = w.mu.toT + (x - w.mu.toT) / (w1.count : T)
      ∧ w1.M2.toT = w.M2.toT + (x - w.mu.toT) * (x - w1.mu.toT)
      ∧ (x ≠ w.mu.toT → w1.M2.toT ≠ w.M2.toT + (x - w.mu.toT) * (x - w.mu.toT)) := by
  refine ⟨_, welford_accumulator.op_add_assign_eq w x hc, rfl, rfl, rfl, ?_, ?_, ?_⟩
  · exact kbn_sum.toT_op_add_assign _ _
  · exact kbn_sum.toT_op_add_assign _ _
  · intro hx heq
    have hd : x - w.mu.toT ≠ 0 := sub_ne_zero.mpr hx
    have hn : (((w.count + 1 : Nat)) : T) ≠ 0 := Nat.cast_ne_zero.mpr (Nat.succ_ne_zero _)
    simp only [kbn_sum.toT_op_add_assign] at heq
    have h1 := mul_left_cancel₀ hd (add_left_cancel heq)
    have h2 : (x - w.mu.toT) / (((w.count + 1 : Nat)) : T) = 0 := by linear_combination -h1
    rcases div_eq_zero_iff.mp h2 with h | h
    · exact hd h
    · exact hn h

/-- Witness for C6 at the state `(1, 0, 0)` and `x = 2` over the rationals. -/
theorem C6_welford_insert_witness :
    (1 : Nat) + 1 < UINT_MODULUS
    ∧ ∃ w1 : welford_accumulator ℚ,
      (⟨1, ⟨0, 0⟩, ⟨0, 0⟩⟩ : welford_accumulator ℚ).op_add_assign 2 = some w1
      ∧ w1.count = 1 + 1
      ∧ w1.mu = (⟨0, 0⟩ : kbn_sum ℚ).op_add_assign ((2 - (⟨0, 0⟩ : kbn_sum ℚ).toT) / (w1.count : ℚ))
      ∧ w1.M2 = (⟨0, 0⟩ : kbn_sum ℚ).op_add_assign ((2 - (⟨0, 0⟩ : kbn_sum ℚ).toT) * (2 - w1.mu.toT))
      ∧ w1.mu.toT = (⟨0, 0⟩ : kbn_sum ℚ).toT + (2 - (⟨0, 0⟩ : kbn_sum ℚ).toT) / (w1.count : ℚ)
      ∧ w1.M2.toT = (⟨0, 0⟩ : kbn_sum ℚ).toT + (2 - (⟨0, 0⟩ : kbn_sum ℚ).toT) * (2 - w1.mu.toT)
      ∧ ((2 : ℚ) ≠ (⟨0, 0⟩ : kbn_sum ℚ).toT → w1.M2.toT ≠ (⟨0, 0⟩ : kbn_sum ℚ).toT
          + (2 - (⟨0, 0⟩ : kbn_sum ℚ).toT) * (2 - (⟨0, 0⟩ : kbn_sum ℚ).toT)) :=
  have h : (1 : Nat) + 1 < UINT_MODULUS := by
    unfold UINT_MODULUS
    norm_num
  ⟨h, C6_welford_insert (⟨1, ⟨0, 0⟩, ⟨0, 0⟩⟩ : welford_accumulator ℚ) 2 h⟩

/-- C6 fails as stated at the last value of the counter: from `count = 2^32 - 1` the
increment wraps to zero, the division by the new count is a division by zero, and no
state with `count' = count + 1` results. -/
theorem C6_counterexample_counter_wrap :
    (⟨4294967295, ⟨0, 0⟩, ⟨0, 0⟩⟩ : welford_accumulator ℚ).op_add_assign 1 = none
    ∧ (4294967295 + 1) % UINT_MODULUS = 0
    ∧ ¬ ∃ w1 : welford_accumulator ℚ,
        (⟨4294967295, ⟨0, 0⟩, ⟨0, 0⟩⟩ : welford_accumulator ℚ).op_add_assign 1 = some w1
        ∧ w1.count = 4294967295 + 1 := by
  have hnone : (⟨4294967295, ⟨0, 0⟩, ⟨0, 0⟩⟩ : welford_accumulator ℚ).op_add_assign 1 = none :=
    welford_accumulator.op_add_assign_wrap _ _ rfl
  refine ⟨hnone, rfl, ?_⟩
  rintro ⟨w1, hw1, _⟩
  rw [hnone] at hw1
  exact Option.noConfusion hw1

/-- C7 (amended): for every accumulator (counter in the 32-bit range),
`sample_variance()` fails by division by zero exactly when `count = 1`; for
`count >= 2` it returns `M2/(count - 1)`; for `count = 0` the `unsigned int`
subtraction `count - 1` wraps to `2^32 - 1` and the call returns `M2/(2^32 - 1)`. -/
theorem C7_sample_variance {T : Type} [LinearOrderedField T]
    (w : welford_accumulator T) (hw : w.count < UINT_MODULUS) :
    (w.sample_variance = none ↔ w.count = 1)
    ∧ (2 ≤ w.count → w.sample_variance = some (w.M2.toT / ((w.count : T) - 1)))
    ∧ (w.count = 0 → w.sample_variance = some (w.M2.toT / 4294967295)) := by
  unfold UINT_MODULUS at hw
  have hdiv : (w.count + (UINT_MODULUS - 1)) % UINT_MODULUS
      = if w.count = 0 then 4294967295 else w.count - 1 := by
    unfold UINT_MODULUS
    split <;> omega
  unfold welford_accumulator.sample_variance
  rw [hdiv]
  refine ⟨?_, ?_, ?_⟩
  · by_cases h0 : w.count = 0
    · simp [h0, checked_div]
    · rw [if_neg h0]
      constructor
      · intro h
        by_contra h1
        have hne : (((w.count - 1 : Nat)) : T) ≠ 0 := Nat.cast_ne_zero.mpr (by omega)
        rw [checked_div_of_ne_zero _ _ hne] at h
        exact Option.noConfusion h
      · intro h1
        rw [h1]
        simp [checked_div]
  · intro h2
    have h0 : w.count ≠ 0 := by omega
    have hne : (((w.count - 1 : Nat)) : T) ≠ 0 := Nat.cast_ne_zero.mpr (by omega)
    rw [if_neg h0, checked_div_of_ne_zero _ _ hne, Nat.cast_sub (by omega), Nat.cast_one]
  · intro h0
    rw [if_pos h0]
    have hne : (((4294967295 : Nat)) : T) ≠ 0 := Nat.cast_ne_zero.mpr (by norm_num)
    rw [checked_div_of_ne_zero _ _ hne]
    norm_num

/-- Witness for C7 at an accumulator holding one observation over the rationals. -/
theorem C7_sample_variance_witness :
    (⟨1, ⟨3, 0⟩, ⟨0, 0⟩⟩ : welford_accumulator ℚ).count < UINT_MODULUS
    ∧ (⟨1, ⟨3, 0⟩, ⟨0, 0⟩⟩ : welford_accumulator ℚ).sample_variance = none :=
  have h : (⟨1, ⟨3, 0⟩, ⟨0, 0⟩⟩ : welford_accumulator ℚ).count < UINT_MODULUS := by
    unfold UINT_MODULUS
    norm_num
  ⟨h, (C7_sample_variance (⟨1, ⟨3, 0⟩, ⟨0, 0⟩⟩ : welford_accumulator ℚ) h).1.mpr rfl⟩

/-- C7 fails as stated for the empty accumulator: with `count = 0`, fewer than 2
observations, `sample_variance()` does not fail but returns `0 / (2^32 - 1) = 0`. -/
theorem C7_counterexample_empty :
    (welford_accumulator.default_ctor : welford_accumulator ℚ).count = 0
    ∧ (welford_accumulator.default_ctor : welford_accumulator ℚ).sample_variance = some 0
    ∧ (welford_accumulator.default_ctor : welford_accumulator ℚ).sample_variance ≠ none := by
  have hs : (welford_accumulator.default_ctor : welford_accumulator ℚ).sample_variance
      = some 0 := by
    have hne : (((4294967295 : Nat)) : ℚ) ≠ 0 := Nat.cast_ne_zero.mpr (by norm_num)
    show checked_div ((0 : ℚ) + 0) (((4294967295 : Nat)) : ℚ) = some 0
    rw [checked_div_of_ne_zero _ _ hne]
    norm_num
  refine ⟨rfl, hs, ?_⟩
  rw [hs]
  exact Option.some_ne_none _

/-! ## Theorems on the tolerance comparison -/

theorem distance_eq_abs {T : Type} [LinearOrderedAddCommGroup T] (a b : T) :
    distance a b = |a - b| := rfl

/-- C8: over a linearly ordered scalar type, `a == b` holds iff
`|a.value - b.value| <= max(a.eps, b.eps)`, `a != b` holds iff
`max(a.eps, b.eps) < |a.value - b.value|`, and `a != b` is exactly the negation of
`a == b`. -/
theorem C8_epsilon_eq_ne {T : Type} [LinearOrderedAddCommGroup T] (a b : epsilon T) :
    (a.op_eq b = true ↔ |a.value - b.value| ≤ max a.eps b.eps)
    ∧ (a.op_ne b = true ↔ max a.eps b.eps < |a.value - b.value|)
    ∧ a.op_ne b = !(a.op_eq b) := by
  refine ⟨?_, ?_, ?_⟩
  · simp only [epsilon.op_eq, distance_eq_abs, decide_eq_true_eq]
  · simp only [epsilon.op_ne, distance_eq_abs, decide_eq_true_eq]
  · simp only [epsilon.op_eq, epsilon.op_ne, distance_eq_abs]
    by_cases h : |a.value - b.value| ≤ max a.eps b.eps
    · simp [h, not_lt.mpr h]
    · simp [h, not_le.mp h]

/-- C9 fails as stated: with `a = (0, eps 1)` and `b = (1.5, eps 1)` the distance 1.5
exceeds the tolerance 1, so `a == b` is false (and so is `b == c` for `c = (3, eps 1)`);
the stated triple does not show the intransitivity. -/
theorem C9_counterexample_stated_triple :
    epsilon.op_eq (⟨0, 1⟩ : epsilon ℚ) ⟨3 / 2, 1⟩ = false
    ∧ epsilon.op_eq (⟨3 / 2, 1⟩ : epsilon ℚ) ⟨3, 1⟩ = false
    ∧ ¬ (epsilon.op_eq (⟨0, 1⟩ : epsilon ℚ) ⟨3 / 2, 1⟩ = true
        ∧ epsilon.op_eq (⟨3 / 2, 1⟩ : epsilon ℚ) ⟨3, 1⟩ = true
        ∧ epsilon.op_ne (⟨0, 1⟩ : epsilon ℚ) ⟨3, 1⟩ = true) := by
  have h1 : epsilon.op_eq (⟨0, 1⟩ : epsilon ℚ) ⟨3 / 2, 1⟩ = false := by
    simp only [epsilon.op_eq, distance_eq_abs, decide_eq_false_iff_not]
    norm_num [abs_of_pos]
  have h2 : epsilon.op_eq (⟨3 / 2, 1⟩ : epsilon ℚ) ⟨3, 1⟩ = false := by
    simp only [epsilon.op_eq, distance_eq_abs, decide_eq_false_iff_not]
    norm_num [abs_of_neg]
  refine ⟨h1, h2, ?_⟩
  rintro ⟨h, _, _⟩
  rw [h1] at h
  exact Bool.noConfusion h

/-- C9 (amended): epsilon equality is not transitive; with `a = (0, eps 1)`,
`b = (1.5, eps 1.5)` and `c = (3, eps 1)` one has `a == b` and `b == c` but `a != c`
(and `a == c` is false). -/
theorem C9_epsilon_eq_not_transitive :
    epsilon.op_eq (⟨0, 1⟩ : epsilon ℚ) ⟨3 / 2, 3 / 2⟩ = true
    ∧ epsilon.op_eq (⟨3 / 2, 3 / 2⟩ : epsilon ℚ) ⟨3, 1⟩ = true
    ∧ epsilon.op_ne (⟨0, 1⟩ : epsilon ℚ) ⟨3, 1⟩ = true
    ∧ epsilon.op_eq (⟨0, 1⟩ : epsilon ℚ) ⟨3, 1⟩ = false := by
  refine ⟨?_, ?_, ?_, ?_⟩
  · simp only [epsilon.op_eq, distance_eq_abs, decide_eq_true_eq]
    norm_num [abs_of_pos]
  · simp only [epsilon.op_eq, distance_eq_abs, decide_eq_true_eq]
    norm_num [abs_of_neg]
  · simp only [epsilon.op_ne, distance_eq_abs, decide_eq_true_eq]
    norm_num [abs_of_pos]
  · simp only [epsilon.op_eq, distance_eq_abs, decide_eq_false_iff_not]
    norm_num [abs_of_pos]

/-- C10: for all epsilon values, `a >= b` holds iff `a == b` and `a.value < b.value`.
It is not the negation of `a < b` and is asymmetric with `<=`: `a >= a` is false for
every `a`, while `a <= a` holds iff `a.eps >= 0` (so whenever `a.eps >= 0`); and at
`a = (2, eps 0)`, `b = (0, eps 0)` both `a < b` and `a >= b` are false and `a > b` is
true. -/
theorem C10_epsilon_ge {T : Type} [LinearOrderedRing T] (a b : epsilon T) :
    (a.op_ge b = true ↔ (a.op_eq b = true ∧ a.value < b.value))
    ∧ a.op_ge a = false
    ∧ (a.op_le a = true ↔ 0 ≤ a.eps)
    ∧ (epsilon.op_lt (⟨2, 0⟩ : epsilon T) ⟨0, 0⟩ = false
        ∧ epsilon.op_ge (⟨2, 0⟩ : epsilon T) ⟨0, 0⟩ = false
        ∧ epsilon.op_gt (⟨2, 0⟩ : epsilon T) ⟨0, 0⟩ = true)
    ∧ (epsilon.op_ge (⟨2, 0⟩ : epsilon T) ⟨0, 0⟩ ≠ !(epsilon.op_lt (⟨2, 0⟩ : epsilon T) ⟨0, 0⟩)) := by
  have h20 : ¬ ((2 : T) < 0) := not_lt.mpr zero_le_two
  have hlt : epsilon.op_lt (⟨2, 0⟩ : epsilon T) ⟨0, 0⟩ = false := by
    simp [epsilon.op_lt, h20]
  have hge : epsilon.op_ge (⟨2, 0⟩ : epsilon T) ⟨0, 0⟩ = false := by
    simp [epsilon.op_ge, h20]
  refine ⟨?_, ?_, ?_, ⟨hlt, hge, ?_⟩, ?_⟩
  · simp only [epsilon.op_ge, Bool.and_eq_true, decide_eq_true_eq, gt_iff_lt]
  · simp [epsilon.op_ge]
  · simp [epsilon.op_le, epsilon.op_eq, distance_eq_abs]
  · simp [epsilon.op_gt, epsilon.op_ne, distance_eq_abs]
  · rw [hlt, hge]
    decide

/-! ## Theorems on the logarithmic-domain number -/

/-- C11: constructing an `lg<T>` from a scalar `x` fails (the assertion `0 < x`
fails) iff `x <= 0`, and succeeds with stored `k = log(x)` iff `0 < x`; construction
from `0` and from `-1` fails. -/
theorem C11_lg_ctor_domain {T : Type} [LinearOrderedField T] (log_T : T → T) (x : T) :
    (lg.ctor log_T x = none ↔ x ≤ 0)
    ∧ (lg.ctor log_T x = some ⟨log_T x⟩ ↔ 0 < x)
    ∧ lg.ctor log_T (0 : T) = none
    ∧ lg.ctor log_T (-1 : T) = none := by
  refine ⟨?_, ?_, ?_, ?_⟩
  · unfold lg.ctor
    by_cases h : 0 < x
    · simp [h]
    · simp [h, not_lt.mp h]
  · unfold lg.ctor
    by_cases h : 0 < x
    · simp [h]
    · simp [h]
  · simp [lg.ctor]
  · have h : ¬ ((0 : T) < -1) := by
      rw [not_lt]
      exact neg_nonpos.mpr zero_le_one
    simp [lg.ctor, h]

/-- Over the reals the value constructor succeeds on a positive argument. -/
theorem lg.ctor_real_of_pos (s : ℝ) (hs : 0 < s) :
    lg.ctor Real.log s = some ⟨Real.log s⟩ := by
  simp [lg.ctor, hs]

/-- Over the reals the value constructor fails on a non-positive argument. -/
theorem lg.ctor_real_of_nonpos (s : ℝ) (hs : s ≤ 0) : lg.ctor Real.log s = none := by
  simp [lg.ctor, not_lt.mpr hs]

/-- On the positive reals the logarithm is below its argument. -/
theorem real_log_lt_self (s : ℝ) (hs : 0 < s) : Real.log s < s := by
  have h := Real.log_le_sub_one_of_pos hs
  linarith

/-- Over the reals the value constructor never stores its argument unchanged. -/
theorem lg.ctor_real_ne_self (s : ℝ) : lg.ctor Real.log s ≠ some ⟨s⟩ := by
  by_cases hs : 0 < s
  · rw [lg.ctor_real_of_pos s hs]
    intro h
    have hk : Real.log s = s := congrArg lg.k (Option.some.inj h)
    have hlt := real_log_lt_self s hs
    linarith
  · rw [lg.ctor_real_of_nonpos s (not_lt.mp hs)]
    exact fun h => Option.noConfusion h

/-- Over the reals the round trip through the value constructor and the conversion
returns the argument. -/
theorem lg.toT_ctor_round_trip (x : ℝ) (hx : 0 < x) :
    ∃ a : lg ℝ, lg.ctor Real.log x = some a ∧ a.toT Real.exp = x :=
  ⟨⟨Real.log x⟩, lg.ctor_real_of_pos x hx, Real.exp_log hx⟩

theorem real_log_two_pos : 0 < Real.log 2 := Real.log_pos (by norm_num)

theorem real_log_three_pos : 0 < Real.log 3 := Real.log_pos (by norm_num)

theorem real_log_two_lt_one : Real.log 2 < 1 := by
  have h := Real.log_lt_sub_one_of_pos (by norm_num : (0 : ℝ) < 2) (by norm_num)
  linarith

/-- C12, the code at the failing inputs: the braced `lg<T>{e}` in `operator*`,
`operator/` and `inv` is the value constructor, so over the reals the stored logarithm
of `x * y` is never `x.k + y.k`, that of `x / y` never `x.k - y.k`, that of `inv(x)`
never `-x.k` (the call fails or stores the logarithm of that number); `x / x` fails for
every `x`; for `x = lg(2)`, `y = lg(3)` the product stores `ln(ln 2 + ln 3)` and
`inv(x)` fails. -/
theorem C12_lg_operations_take_log :
    (∀ x y : lg ℝ, lg.op_mul Real.log x y ≠ some ⟨x.k + y.k⟩)
    ∧ (∀ x y : lg ℝ, lg.op_div Real.log x y ≠ some ⟨x.k - y.k⟩)
    ∧ (∀ x : lg ℝ, lg.inv Real.log x ≠ some ⟨-x.k⟩)
    ∧ (∀ x : lg ℝ, lg.op_div Real.log x x = none)
    ∧ lg.ctor Real.log 2 = some ⟨Real.log 2⟩
    ∧ lg.ctor Real.log 3 = some ⟨Real.log 3⟩
    ∧ lg.op_mul Real.log ⟨Real.log 2⟩ ⟨Real.log 3⟩
        = some ⟨Real.log (Real.log 2 + Real.log 3)⟩
    ∧ lg.inv Real.log ⟨Real.log 2⟩ = none := by
  refine ⟨?_, ?_, ?_, ?_, ?_, ?_, ?_, ?_⟩
  · intro x y
    exact lg.ctor_real_ne_self _
  · intro x y
    unfold lg.op_div
    rw [← sub_eq_add_neg]
    exact lg.ctor_real_ne_self _
  · intro x
    exact lg.ctor_real_ne_self _
  · intro x
    unfold lg.op_div
    rw [add_neg_cancel]
    exact lg.ctor_real_of_nonpos 0 (le_refl 0)
  · exact lg.ctor_real_of_pos 2 (by norm_num)
  · exact lg.ctor_real_of_pos 3 (by norm_num)
  · exact lg.ctor_real_of_pos _ (add_pos real_log_two_pos real_log_three_pos)
  · exact lg.ctor_real_of_nonpos _ (neg_nonpos.mpr (le_of_lt real_log_two_pos))

/-- C13, the code at the failing input: over the reals `lg<T>(2)` converts back to
`2`, but the product `lg<T>(2) * lg<T>(3)` stores `ln(ln 2 + ln 3)` and converts back
to `ln 2 + ln 3`, not to `2 * 3`; no product of two `lg` values converts back to the
product of their converted values, and `lg<T>(1) * lg<T>(1)` fails. -/
theorem C13_lg_product_converts_to_log :
    lg.ctor Real.log 2 = some ⟨Real.log 2⟩
    ∧ lg.ctor Real.log 3 = some ⟨Real.log 3⟩
    ∧ (⟨Real.log 2⟩ : lg ℝ).toT Real.exp = 2
    ∧ lg.op_mul Real.log ⟨Real.log 2⟩ ⟨Real.log 3⟩
        = some ⟨Real.log (Real.log 2 + Real.log 3)⟩
    ∧ (⟨Real.log (Real.log 2 + Real.log 3)⟩ : lg ℝ).toT Real.exp = Real.log 2 + Real.log 3
    ∧ Real.log 2 + Real.log 3 ≠ 2 * 3
    ∧ (∀ a b : lg ℝ, ¬ ∃ p : lg ℝ, lg.op_mul Real.log a b = some p
        ∧ p.toT Real.exp = a.toT Real.exp * b.toT Real.exp)
    ∧ lg.ctor Real.log 1 = some ⟨Real.log 1⟩
    ∧ lg.op_mul Real.log ⟨Real.log 1⟩ ⟨Real.log 1⟩ = none := by
  have hpos : 0 < Real.log 2 + Real.log 3 := add_pos real_log_two_pos real_log_three_pos
  refine ⟨?_, ?_, ?_, ?_, ?_, ?_, ?_, ?_, ?_⟩
  · exact lg.ctor_real_of_pos 2 (by norm_num)
  · exact lg.ctor_real_of_pos 3 (by norm_num)
  · exact Real.exp_log (by norm_num)
  · exact lg.ctor_real_of_pos _ hpos
  · exact Real.exp_log hpos
  · have h2 := real_log_lt_self 2 (by norm_num)
    have h3 := real_log_lt_self 3 (by norm_num)
    intro h
    linarith
  · rintro a b ⟨p, hp, hconv⟩
    by_cases hs : 0 < a.k + b.k
    · have hctor : lg.ctor Real.log (a.k + b.k) = some p := hp
      rw [lg.ctor_real_of_pos _ hs] at hctor
      have hpk : p = ⟨Real.log (a.k + b.k)⟩ := (Option.some.inj hctor).symm
      rw [hpk] at hconv
      simp only [lg.toT] at hconv
      rw [Real.exp_log hs, ← Real.exp_add] at hconv
      have hexp := Real.add_one_le_exp (a.k + b.k)
      linarith
    · have hctor : lg.ctor Real.log (a.k + b.k) = some p := hp
      rw [lg.ctor_real_of_nonpos _ (not_lt.mp hs)] at hctor
      exact Option.noConfusion hctor
  · exact lg.ctor_real_of_pos 1 (by norm_num)
  · unfold lg.op_mul
    rw [Real.log_one, add_zero]
    exact lg.ctor_real_of_nonpos 0 (le_refl 0)

/-- C14: with `max(T)` a positive limit `max_T`, over the reals the predicate
`source_overflows(x)` is evaluated (the construction of `lg<T>(max(T))` succeeds) and
is true iff `x.k` exceeds `ln(max(T))`, equivalently iff the materialised value
`exp(x.k)` exceeds `max(T)`. -/
theorem C14_source_overflows (max_T : ℝ) (hmax : 0 < max_T) (x : lg ℝ) :
    ∃ b : Bool,
      lg.source_overflows Real.log max_T x = some b
      ∧ (b = true ↔ Real.log max_T < x.k)
      ∧ (b = true ↔ max_T < x.toT Real.exp) := by
  refine ⟨decide (Real.log max_T < x.k), ?_, ?_, ?_⟩
  · simp [lg.source_overflows, lg.ctor, hmax, lg.op_lt]
  · simp only [decide_eq_true_eq]
  · simp only [decide_eq_true_eq, lg.toT]
    exact Real.log_lt_iff_lt_exp hmax

/-- Witness for C14 at `max(T) = 2` and the identity `lg()`. -/
theorem C14_source_overflows_witness :
    (0 : ℝ) < 2
    ∧ ∃ b : Bool,
      lg.source_overflows Real.log 2 (lg.default_ctor : lg ℝ) = some b
      ∧ (b = true ↔ Real.log 2 < (lg.default_ctor : lg ℝ).k)
      ∧ (b = true ↔ 2 < (lg.default_ctor : lg ℝ).toT Real.exp) :=
  have h2 : (0 : ℝ) < 2 := by norm_num
  ⟨h2, C14_source_overflows 2 h2 lg.default_ctor⟩

/-- C15, the code at the failing inputs: `source_underflows(x)` is
`numeric_limits<lg<T>>::max() < x`, the same test `ln(max(T)) < x.k` as
`source_overflows(x)`. With the limits of `double` (`max = (2^53 - 1) * 2^971`,
`min = 2^-1022`) it is false at `x = lg<T>(10^-310)` although the converted value is
below `min(T)`, and it is true at `x.k = ln(max(T)) + 1`, whose converted value
exceeds `max(T)`. -/
theorem C15_source_underflows_is_overflow_test :
    (∀ (max_T : ℝ) (x : lg ℝ),
        lg.source_underflows Real.log max_T x = lg.source_overflows Real.log max_T x)
    ∧ lg.ctor Real.log (1 / 10 ^ 310) = some ⟨Real.log (1 / 10 ^ 310)⟩
    ∧ (⟨Real.log (1 / 10 ^ 310)⟩ : lg ℝ).toT Real.exp < 1 / 2 ^ 1022
    ∧ lg.source_underflows Real.log (((2 : ℝ) ^ 53 - 1) * 2 ^ 971)
        ⟨Real.log (1 / 10 ^ 310)⟩ = some false
    ∧ ((2 : ℝ) ^ 53 - 1) * 2 ^ 971
        < (⟨Real.log (((2 : ℝ) ^ 53 - 1) * 2 ^ 971) + 1⟩ : lg ℝ).toT Real.exp
    ∧ lg.source_underflows Real.log (((2 : ℝ) ^ 53 - 1) * 2 ^ 971)
        ⟨Real.log (((2 : ℝ) ^ 53 - 1) * 2 ^ 971) + 1⟩ = some true := by
  have hM1 : (1 : ℝ) ≤ ((2 : ℝ) ^ 53 - 1) * 2 ^ 971 := by
    have h53 : (1 : ℝ) ≤ (2 : ℝ) ^ 53 - 1 := by norm_num
    have h971 : (1 : ℝ) ≤ (2 : ℝ) ^ 971 := one_le_pow₀ (by norm_num)
    calc (1 : ℝ) = 1 * 1 := by ring
      _ ≤ ((2 : ℝ) ^ 53 - 1) * 2 ^ 971 := mul_le_mul h53 h971 (by norm_num) (by linarith)
  have hM : (0 : ℝ) < ((2 : ℝ) ^ 53 - 1) * 2 ^ 971 := lt_of_lt_of_le one_pos hM1
  have hx : (0 : ℝ) < 1 / 10 ^ 310 := by positivity
  have hx1 : (1 : ℝ) / 10 ^ 310 ≤ 1 := by
    rw [div_le_one (by positivity)]
    exact one_le_pow₀ (by norm_num)
  refine ⟨?_, ?_, ?_, ?_, ?_, ?_⟩
  · intro max_T x
    rfl
  · exact lg.ctor_real_of_pos _ hx
  · show Real.exp (Real.log (1 / 10 ^ 310)) < 1 / 2 ^ 1022
    rw [Real.exp_log hx]
    apply one_div_lt_one_div_of_lt (by positivity)
    norm_num
  · have hle : Real.log (1 / 10 ^ 310) ≤ Real.log (((2 : ℝ) ^ 53 - 1) * 2 ^ 971) :=
      Real.log_le_log hx (le_trans hx1 hM1)
    simp only [lg.source_underflows, lg.numeric_limits_max, lg.ctor, if_pos hM, lg.op_lt,
      decide_eq_false (not_lt.mpr hle)]
  · show ((2 : ℝ) ^ 53 - 1) * 2 ^ 971
      < Real.exp (Real.log (((2 : ℝ) ^ 53 - 1) * 2 ^ 971) + 1)
    rw [Real.exp_add, Real.exp_log hM]
    have he : (1 : ℝ) < Real.exp 1 := by
      have h := Real.add_one_le_exp (1 : ℝ)
      linarith
    nlinarith
  · have hlt : Real.log (((2 : ℝ) ^ 53 - 1) * 2 ^ 971)
        < Real.log (((2 : ℝ) ^ 53 - 1) * 2 ^ 971) + 1 := lt_add_one _
    simp only [lg.source_underflows, lg.numeric_limits_max, lg.ctor, if_pos hM, lg.op_lt,
      decide_eq_true hlt]

/-- C16: each of the six comparison operators on `lg` compares the stored logarithms
and so agrees with the same comparison on the represented values `exp(k)` over the
reals; `>=` is the negation of `<`, `!=` of `==`, `>` of `<=`, and exactly one of
`<`, `==`, `>` holds. -/
theorem C16_lg_comparisons (x y : lg ℝ) :
    (x.op_lt y = true ↔ x.toT Real.exp < y.toT Real.exp)
    ∧ (x.op_le y = true ↔ x.toT Real.exp ≤ y.toT Real.exp)
    ∧ (x.op_eq y = true ↔ x.toT Real.exp = y.toT Real.exp)
    ∧ (x.op_ne y = true ↔ x.toT Real.exp ≠ y.toT Real.exp)
    ∧ (x.op_gt y = true ↔ x.toT Real.exp > y.toT Real.exp)
    ∧ (x.op_ge y = true ↔ x.toT Real.exp ≥ y.toT Real.exp)
    ∧ (x.op_lt y = true ↔ x.k < y.k)
    ∧ x.op_ge y = !(x.op_lt y)
    ∧ x.op_ne y = !(x.op_eq y)
    ∧ x.op_gt y = !(x.op_le y)
    ∧ ((x.op_lt y = true ∧ x.op_eq y = false ∧ x.op_gt y = false)
        ∨ (x.op_lt y = false ∧ x.op_eq y = true ∧ x.op_gt y = false)
        ∨ (x.op_lt y = false ∧ x.op_eq y = false ∧ x.op_gt y = true)) := by
  refine ⟨?_, ?_, ?_, ?_, ?_, ?_, ?_, ?_, ?_, ?_, ?_⟩
  · simp only [lg.op_lt, lg.toT, decide_eq_true_eq, Real.exp_lt_exp]
  · simp only [lg.op_le, lg.toT, decide_eq_true_eq, Real.exp_le_exp]
  · simp only [lg.op_eq, lg.toT, decide_eq_true_eq, Real.exp_eq_exp]
  · simp only [lg.op_ne, lg.toT, decide_eq_true_eq, ne_eq, Real.exp_eq_exp]
  · simp only [lg.op_gt, lg.toT, decide_eq_true_eq, gt_iff_lt, Real.exp_lt_exp]
  · simp only [lg.op_ge, lg.toT, decide_eq_true_eq, ge_iff_le, Real.exp_le_exp]
  · simp only [lg.op_lt, decide_eq_true_eq]
  · simp only [lg.op_ge, lg.op_lt]
    by_cases h : x.k < y.k
    · simp [h]
    · simp [h, not_lt.mp h]
  · simp only [lg.op_ne, lg.op_eq]
    by_cases h : x.k = y.k
    · simp [h]
    · simp [h]
  · simp only [lg.op_gt, lg.op_le]
    by_cases h : x.k ≤ y.k
    · simp [h]
    · simp [h, not_le.mp h]
  · simp only [lg.op_lt, lg.op_eq, lg.op_gt, decide_eq_true_eq, decide_eq_false_iff_not,
      gt_iff_lt]
    rcases lt_trichotomy x.k y.k with h | h | h
    · exact Or.inl ⟨h, ne_of_lt h, not_lt.mpr (le_of_lt h)⟩
    · exact Or.inr (Or.inl ⟨by rw [h]; exact lt_irrefl _, h, by rw [h]; exact lt_irrefl _⟩)
    · exact Or.inr (Or.inr ⟨not_lt.mpr (le_of_lt h), ne_of_gt h, h⟩)

/-- C17, the code at the failing inputs: the braced `lg<T>{e * x.k}` in `pow` is the
value constructor, so over the reals the stored logarithm of `pow(x, e)` is never
`e * x.k`; `sqrt(x)` is `pow(x, 1/2)` and `nth_root(x, r)` is `pow(x, 1/r)` (undefined
at `r = 0`); for `x = lg(2)`, `sqrt(x)` stores `ln(ln(2)/2)` and `sqrt(x) * sqrt(x)`
fails, `pow(x, 1)` stores `ln(ln 2)` and `nth_root(pow(x, 1), 1)` fails. -/
theorem C17_lg_pow_takes_log :
    (∀ (x : lg ℝ) (e : ℝ), lg.pow Real.log x e ≠ some ⟨e * x.k⟩)
    ∧ (∀ x : lg ℝ, lg.sqrt Real.log x = lg.pow Real.log x (1 / 2))
    ∧ (∀ (x : lg ℝ) (r : ℝ),
        lg.nth_root Real.log x r = if r = 0 then none else lg.pow Real.log x (1 / r))
    ∧ lg.sqrt Real.log ⟨Real.log 2⟩ = some ⟨Real.log (1 / 2 * Real.log 2)⟩
    ∧ lg.op_mul Real.log ⟨Real.log (1 / 2 * Real.log 2)⟩ ⟨Real.log (1 / 2 * Real.log 2)⟩
        = none
    ∧ lg.pow Real.log ⟨Real.log 2⟩ 1 = some ⟨Real.log (1 * Real.log 2)⟩
    ∧ lg.nth_root Real.log ⟨Real.log (1 * Real.log 2)⟩ 1 = none := by
  have hhalf : (0.5 : ℝ) = 1 / 2 := by norm_num
  have hl2 := real_log_two_pos
  have hl2' := real_log_two_lt_one
  refine ⟨?_, ?_, ?_, ?_, ?_, ?_, ?_⟩
  · intro x e
    exact lg.ctor_real_ne_self _
  · intro x
    unfold lg.sqrt
    rw [hhalf]
  · intro x r
    unfold lg.nth_root
    by_cases hr : r = 0
    · rw [if_pos hr, hr, checked_div_zero]
    · rw [if_neg hr, checked_div_of_ne_zero _ _ hr]
  · unfold lg.sqrt lg.pow
    rw [hhalf]
    exact lg.ctor_real_of_pos _ (by positivity)
  · have hneg : Real.log (1 / 2 * Real.log 2) < 0 :=
      Real.log_neg (by positivity) (by linarith)
    exact lg.ctor_real_of_nonpos _ (by linarith)
  · exact lg.ctor_real_of_pos _ (by linarith)
  · have hneg : Real.log (1 * Real.log 2) < 0 :=
      Real.log_neg (by linarith) (by linarith)
    unfold lg.nth_root
    rw [checked_div_of_ne_zero _ _ one_ne_zero]
    exact lg.ctor_real_of_nonpos _ (by linarith)

/-- C18, the code at the failing input: over the reals, for `x.k > 0` and `y = exp(x.k)`
`gamma(x)` passes `ln(2 pi)/2 + ln(y)/2 + y * ln(y) - y` to the value constructor (the
term `ln(y)/2` is added, and the result stores the logarithm of the sum), and for
`x.k <= 0` it fails in `x.log()`; at `x.k = 1`, `y = e`, it stores
`ln(ln(2 pi)/2 + 1/2)`, which is not `ln(2 pi)/2 - ln(y)/2 + y * ln(y) - y`; at the
identity `lg()` it fails. -/
theorem C18_gamma_code_formula :
    (∀ x : lg ℝ, lg.gamma Real.log Real.exp Real.sqrt Real.pi x
        = if 0 < x.k then
            lg.ctor Real.log
              (Real.log (2 * Real.pi) / 2 + x.k / 2 + Real.exp x.k * x.k - Real.exp x.k)
          else none)
    ∧ lg.gamma Real.log Real.exp Real.sqrt Real.pi ⟨1⟩
        = some ⟨Real.log (Real.log (2 * Real.pi) / 2 + 1 / 2)⟩
    ∧ Real.log (Real.log (2 * Real.pi) / 2 + 1 / 2)
        ≠ Real.log (2 * Real.pi) / 2 - Real.log (Real.exp 1) / 2
          + Real.exp 1 * Real.log (Real.exp 1) - Real.exp 1
    ∧ lg.gamma Real.log Real.exp Real.sqrt Real.pi lg.default_ctor = none := by
  have hform : ∀ x : lg ℝ, lg.gamma Real.log Real.exp Real.sqrt Real.pi x
      = if 0 < x.k then
          lg.ctor Real.log
            (Real.log (2 * Real.pi) / 2 + x.k / 2 + Real.exp x.k * x.k - Real.exp x.k)
        else none := by
    intro x
    have hpi : (0 : ℝ) ≤ 2 * Real.pi := by positivity
    by_cases hk : 0 < x.k
    · rw [if_pos hk]
      simp only [lg.gamma, lg.log, lg.ctor, if_pos hk, lg.toT]
      rw [Real.log_sqrt hpi, Real.log_sqrt (le_of_lt (Real.exp_pos _)), Real.log_exp,
        Real.exp_log hk]
      congr 1
    · rw [if_neg hk]
      simp only [lg.gamma, lg.log, lg.ctor, if_neg hk]
  have hlog : 1 < Real.log (2 * Real.pi) := by
    rw [Real.lt_log_iff_exp_lt (by positivity)]
    have he := Real.exp_one_lt_d9
    have hp := Real.pi_gt_three
    linarith
  have hB : 0 < Real.log (2 * Real.pi) / 2 + 1 / 2 := by linarith
  refine ⟨hform, ?_, ?_, ?_⟩
  · rw [hform, if_pos (by norm_num : (0 : ℝ) < (⟨1⟩ : lg ℝ).k)]
    have harg : Real.log (2 * Real.pi) / 2 + (⟨1⟩ : lg ℝ).k / 2
        + Real.exp (⟨1⟩ : lg ℝ).k * (⟨1⟩ : lg ℝ).k - Real.exp (⟨1⟩ : lg ℝ).k
        = Real.log (2 * Real.pi) / 2 + 1 / 2 := by
      show Real.log (2 * Real.pi) / 2 + 1 / 2 + Real.exp 1 * 1 - Real.exp 1
        = Real.log (2 * Real.pi) / 2 + 1 / 2
      ring
    rw [harg]
    exact lg.ctor_real_of_pos _ hB
  · rw [Real.log_exp]
    have hlt := Real.log_lt_sub_one_of_pos hB (by linarith)
    intro h
    linarith
  · rw [hform]
    exact if_neg (lt_irrefl (0 : ℝ))

/-! ## Trichotomy of the tolerance comparison -/

/-- C20: over a linearly ordered scalar type, for every pair `a`, `b` of epsilon values
with non-negative tolerances exactly one of `a < b`, `a == b`, `a > b` holds, `a == a`
and `b == b` hold and `a == b` agrees with `b == a`; the constructor accepts any
`eps`, and for a value with a negative tolerance `c == c` is false. -/
theorem C20_epsilon_trichotomy {T : Type} [LinearOrderedAddCommGroup T]
    (a b : epsilon T) (ha : 0 ≤ a.eps) (hb : 0 ≤ b.eps) :
    ((a.op_lt b = true ∧ a.op_eq b = false ∧ a.op_gt b = false)
      ∨ (a.op_lt b = false ∧ a.op_eq b = true ∧ a.op_gt b = false)
      ∨ (a.op_lt b = false ∧ a.op_eq b = false ∧ a.op_gt b = true))
    ∧ a.op_eq a = true
    ∧ b.op_eq b = true
    ∧ a.op_eq b = b.op_eq a
    ∧ (∀ v e : T, e < 0 → (epsilon.mk v e).op_eq (epsilon.mk v e) = false) := by
  refine ⟨?_, ?_, ?_, ?_, ?_⟩
  · simp only [epsilon.op_lt, epsilon.op_gt, epsilon.op_eq, epsilon.op_ne, distance_eq_abs,
      Bool.and_eq_true, Bool.and_eq_false_iff, decide_eq_true_eq, decide_eq_false_iff_not]
    by_cases h : |a.value - b.value| ≤ max a.eps b.eps
    · right; left
      exact ⟨Or.inl (not_lt.mpr h), h, Or.inl (not_lt.mpr h)⟩
    · have hlt : max a.eps b.eps < |a.value - b.value| := not_le.mp h
      have hpos : 0 < |a.value - b.value| := lt_of_le_of_lt (le_max_of_le_left ha) hlt
      have hne : a.value ≠ b.value := fun heq => by
        rw [heq, sub_self, abs_zero] at hpos
        exact lt_irrefl _ hpos
      rcases lt_or_gt_of_ne hne with hab | hab
      · left
        exact ⟨⟨hlt, hab⟩, h, Or.inr (not_lt.mpr (le_of_lt hab))⟩
      · right; right
        exact ⟨Or.inr (not_lt.mpr (le_of_lt hab)), h, ⟨hlt, hab⟩⟩
  · simp [epsilon.op_eq, distance_eq_abs, ha]
  · simp [epsilon.op_eq, distance_eq_abs, hb]
  · simp only [epsilon.op_eq, distance_eq_abs]
    have hiff : |a.value - b.value| ≤ max a.eps b.eps ↔ |b.value - a.value| ≤ max b.eps a.eps := by
      rw [abs_sub_comm, max_comm]
    exact decide_eq_decide.mpr hiff
  · intro v e he
    simp [epsilon.op_eq, distance_eq_abs, he]

/-- Witness for C20 at `a = (0, eps 1)`, `b = (3, eps 1)` over the rationals, together
with a value of negative tolerance, `(0, eps -1)`, that is not equal to itself. -/
theorem C20_epsilon_trichotomy_witness :
    (0 : ℚ) ≤ (⟨0, 1⟩ : epsilon ℚ).eps ∧ (0 : ℚ) ≤ (⟨3, 1⟩ : epsilon ℚ).eps
    ∧ (⟨0, 1⟩ : epsilon ℚ).op_eq ⟨0, 1⟩ = true
    ∧ (⟨0, -1⟩ : epsilon ℚ).op_eq ⟨0, -1⟩ = false :=
  have h1 : (0 : ℚ) ≤ (⟨0, 1⟩ : epsilon ℚ).eps := zero_le_one
  have h2 : (0 : ℚ) ≤ (⟨3, 1⟩ : epsilon ℚ).eps := zero_le_one
  ⟨h1, h2, (C20_epsilon_trichotomy (⟨0, 1⟩ : epsilon ℚ) ⟨3, 1⟩ h1 h2).2.1,
    (C20_epsilon_trichotomy (⟨0, 1⟩ : epsilon ℚ) ⟨3, 1⟩ h1 h2).2.2.2.2 0 (-1) (by norm_num)⟩

/-! ## Frame of the scalar assignment -/

/-- C21: assigning a scalar `x` to a `kbn_sum` (`operator=(T)`) sets `s` to `x` and
leaves `c` unchanged, so the materialised value afterwards is `x + c_old`; over exact
arithmetic it equals `x` iff the compensation term was zero before the assignment,
while construction from `x` sets `c` to `0` and materialises to `x`. -/
theorem C21_assign_keeps_compensation {T : Type} [AddGroup T] (a : kbn_sum T) (x : T) :
    (a.assign x).s = x
    ∧ (a.assign x).c = a.c
    ∧ (a.assign x).toT = x + a.c
    ∧ ((a.assign x).toT = x ↔ a.c = 0)
    ∧ (kbn_sum.ctor x).s = x
    ∧ (kbn_sum.ctor x).c = 0
    ∧ (kbn_sum.ctor x).toT = x := by
  refine ⟨rfl, rfl, rfl, ?_, rfl, rfl, ?_⟩
  · show x + a.c = x ↔ a.c = 0
    exact add_right_eq_self
  · show x + 0 = x
    exact add_zero x

/-- Example of the scalar assignment over the rationals: assigning `5` to the state
`(s, c) = (2, 3)` gives `(5, 3)`, which materialises to `8`, not `5`. -/
theorem kbn_sum.assign_example :
    (kbn_sum.assign (⟨2, 3⟩ : kbn_sum ℚ) 5) = ⟨5, 3⟩
    ∧ (kbn_sum.assign (⟨2, 3⟩ : kbn_sum ℚ) 5).toT = 8
    ∧ (kbn_sum.assign (⟨2, 3⟩ : kbn_sum ℚ) 5).toT ≠ 5 := by
  refine ⟨rfl, ?_, ?_⟩
  · show (5 : ℚ) + 3 = 8
    norm_num
  · show (5 : ℚ) + 3 ≠ 5
    norm_num

/-! ## Rounded arithmetic: the accuracy statement of `kbn_sum` -/

theorem expo3_bounds (fuel n : Nat) (h4 : 4 ≤ n) (hf : n ≤ fuel) :
    4 * 2 ^ expo3 fuel n ≤ n ∧ n < 8 * 2 ^ expo3 fuel n := by
  induction fuel generalizing n with
  | zero => omega
  | succ f ih =>
    unfold expo3
    by_cases h8 : n < 8
    · simp only [if_pos h8, pow_zero]
      omega
    · simp only [if_neg h8]
      have ih2 := ih (n / 2) (by omega) (by omega)
      rw [pow_succ]
      generalize 2 ^ expo3 f (n / 2) = P at ih2 ⊢
      omega

theorem expo3_small (fuel n : Nat) (h : n < 8) : expo3 fuel n = 0 := by
  cases fuel with
  | zero => rfl
  | succ f => simp [expo3, h]

/-- The relative error of `round3` is at most the unit roundoff `1/8`. -/
theorem round3_error (n : Nat) : 8 * |((round3 n : Nat) : Int) - (n : Int)| ≤ (n : Int) := by
  by_cases h4 : n < 4
  · have he : expo3 n n = 0 := expo3_small n n (by omega)
    simp [round3, he, Nat.mod_one]
  · obtain ⟨hlo, hhi⟩ := expo3_bounds n n (by omega) (le_refl n)
    unfold round3
    simp only []
    generalize hP : 2 ^ expo3 n n = P at *
    have hPpos : 0 < P := by rw [← hP]; positivity
    have hdm := Nat.div_add_mod n P
    have hr := Nat.mod_lt n hPpos
    generalize hm : n / P = m at *
    generalize hrr : n % P = r at *
    have hm4 : 4 ≤ m := by
      by_contra hc
      have hm3 : m ≤ 3 := by omega
      have : P * m ≤ P * 3 := Nat.mul_le_mul_left P hm3
      omega
    have hm8 : m < 8 := by
      by_contra hc
      have hm3 : 8 ≤ m := by omega
      have : P * 8 ≤ P * m := Nat.mul_le_mul_left P hm3
      omega
    have hmod := Nat.mod_two_eq_zero_or_one m
    interval_cases m <;> (split_ifs <;> (push_cast; rw [← Int.natCast_natAbs]; omega))

/-- The relative error of `fl3` is at most the unit roundoff `1/8`. -/
theorem fl3_error (z : Int) : 8 * |fl3 z - z| ≤ |z| := by
  unfold fl3
  have h := round3_error z.natAbs
  by_cases hz : z < 0
  · rw [if_pos hz]
    have habs : ((z.natAbs : Nat) : Int) = -z := by omega
    rw [habs] at h
    have e1 : |(-((round3 z.natAbs : Nat) : Int)) - z|
        = |((round3 z.natAbs : Nat) : Int) - -z| := by
      rw [← abs_neg]
      congr 1
      ring
    rw [e1, abs_of_neg hz]
    exact h
  · rw [if_neg hz]
    have habs : ((z.natAbs : Nat) : Int) = z := by omega
    rw [habs] at h
    rw [abs_of_nonneg (not_lt.mp hz)]
    exact h

theorem foldl_replicate_of_fixed {α β : Type} (f : α → β → α) (a : α) (b : β)
    (h : f a b = a) (n : Nat) : (List.replicate n b).foldl f a = a := by
  induction n with
  | zero => rfl
  | succ n ih => rw [List.replicate_succ, List.foldl_cons, h, ih]

set_option maxRecDepth 100000 in
/-- In `float3`, `kbn_sum` over sixteen ones ends in the state `(s, c) = (8, 8)`. -/
theorem kbn_sum.reduce_float3_sixteen_ones :
    (kbn_sum.default_ctor : kbn_sum float3).reduce (List.replicate 16 ⟨1⟩) = ⟨⟨8⟩, ⟨8⟩⟩ := by
  rfl

/-- In `float3` the state `(8, 8)` absorbs a further one: `8 + 1` rounds to `8` in `s`
and in `c`. -/
theorem kbn_sum.op_add_assign_float3_fixed :
    kbn_sum.op_add_assign (⟨⟨8⟩, ⟨8⟩⟩ : kbn_sum float3) ⟨1⟩ = ⟨⟨8⟩, ⟨8⟩⟩ := by
  rfl

theorem kbn_sum.reduce_float3_ones (m : Nat) :
    (kbn_sum.default_ctor : kbn_sum float3).reduce (List.replicate (16 + m) ⟨1⟩)
      = ⟨⟨8⟩, ⟨8⟩⟩ := by
  have h16 := kbn_sum.reduce_float3_sixteen_ones
  unfold kbn_sum.reduce at h16 ⊢
  rw [List.replicate_add, List.foldl_append, h16]
  exact foldl_replicate_of_fixed _ _ _ kbn_sum.op_add_assign_float3_fixed m

theorem naive_sum_float3_ones (m : Nat) :
    naive_sum (List.replicate (8 + m) (⟨1⟩ : float3)) = ⟨8⟩ := by
  have h8 : (List.replicate 8 (⟨1⟩ : float3)).foldl (fun t x => t + x) 0 = ⟨8⟩ := by rfl
  unfold naive_sum
  rw [List.replicate_add, List.foldl_append, h8]
  exact foldl_replicate_of_fixed _ _ _ (by rfl) m

/-- C19, the code at the failing input: in the floating-point format `float3` (three
significant bits, rounding error at most `u = 1/8` relative), `kbn_sum`'s `reduce`
over `N >= 16` values all equal to `1` ends in `(s, c) = (8, 8)` and materialises to
`16`, so its error `N - 16` grows with `N`; at `N = 40` the error `24` exceeds
`2 * u * sum |xi| = 10`. Naive summation of `N >= 8` ones gives `8`. -/
theorem C19_kbn_error_grows_with_count :
    (∀ z : Int, 8 * |fl3 z - z| ≤ |z|)
    ∧ (∀ m : Nat, (kbn_sum.default_ctor : kbn_sum float3).reduce
        (List.replicate (16 + m) ⟨1⟩) = ⟨⟨8⟩, ⟨8⟩⟩)
    ∧ (∀ m : Nat, ((kbn_sum.default_ctor : kbn_sum float3).reduce
        (List.replicate (16 + m) ⟨1⟩)).toT = ⟨16⟩)
    ∧ (∀ m : Nat, naive_sum (List.replicate (8 + m) (⟨1⟩ : float3)) = ⟨8⟩)
    ∧ ((List.replicate 40 (⟨1⟩ : float3)).map float3.val).sum = 40
    ∧ 2 * ((List.replicate 40 (⟨1⟩ : float3)).map (fun x => |x.val|)).sum
        < 8 * |((kbn_sum.default_ctor : kbn_sum float3).reduce
                  (List.replicate 40 ⟨1⟩)).toT.val
              - ((List.replicate 40 (⟨1⟩ : float3)).map float3.val).sum| := by
  have hsum : ((List.replicate 40 (⟨1⟩ : float3)).map float3.val).sum = 40 := by
    simp [List.map_replicate, List.sum_replicate]
  have habs : ((List.replicate 40 (⟨1⟩ : float3)).map (fun x => |x.val|)).sum = 40 := by
    simp [List.map_replicate, List.sum_replicate]
  have h40 : (kbn_sum.default_ctor : kbn_sum float3).reduce (List.replicate 40 ⟨1⟩)
      = ⟨⟨8⟩, ⟨8⟩⟩ := kbn_sum.reduce_float3_ones 24
  refine ⟨fl3_error, kbn_sum.reduce_float3_ones, ?_, naive_sum_float3_ones, hsum, ?_⟩
  · intro m
    rw [kbn_sum.reduce_float3_ones m]
    rfl
  · rw [hsum, habs, h40]
    decide
